import Mathlib

/-!
Shallow embedding of the SceneLens temporal segmentation and selection
engine (`src/backend/search.py`, `src/pipeline/on_demand_extract.py`).

Timestamps and relevance scores are modelled as exact rationals (`ℚ`);
the Python floats carry small decimal constants for which rational
arithmetic agrees with IEEE-754 doubles on every input used here.
Images are opaque handles (`ℕ`), exactly as the engine treats them.
Python's stable `sorted` is modelled by `List.insertionSort`, which is
also stable.
-/

namespace SceneLens

section RatReduction

attribute [local semireducible] Rat.mul Rat.inv Rat.add Rat.sub Rat.ofScientific

/-- A scored frame as produced by `extract_query_specific_frames`
(`on_demand_extract.py`): the dict with keys `timestamp_seconds`,
`frame_number`, `similarity_score`, `pil_image`, `keyframe_path`,
`caption`. -/
structure Frame where
  frame_number : ℕ
  timestamp_seconds : ℚ
  similarity_score : ℚ
  pil_image : ℕ
  keyframe_path : Option String
  caption : Option String
deriving DecidableEq

/-- A content segment as built by `_create_segment_from_region`
(`search.py`): the dict with keys `start_time`, `end_time`,
`start_frame`, `best_score`, `best_image`, `keyframe_path`, `caption`. -/
structure Seg where
  start_time : ℚ
  end_time : ℚ
  start_frame : ℕ
  best_score : ℚ
  best_image : ℕ
  keyframe_path : Option String
  caption : String
deriving DecidableEq

/-- List-of-characters substring test: does `sub` occur inside `s`?
Models Python's `sub in s` on strings. -/
def listContainsSub (s sub : List Char) : Bool :=
  s.tails.any (fun t => sub.isPrefixOf t)

/-- String containment, Python `sub in s`. -/
def strContains (s sub : String) : Bool :=
  listContainsSub s.data sub.data

/-- Python `s.lower()`. -/
def strLower (s : String) : String :=
  ⟨s.data.map Char.toLower⟩

/-- One step of Python `str.title()`: uppercase a letter that follows a
non-letter, lowercase a letter that follows a letter. -/
def titleChar (prevAlpha : Bool) (c : Char) : Char :=
  if c.isAlpha then (if prevAlpha then c.toLower else c.toUpper) else c

/-- Python `s.title()` over the character list. -/
def titleAux : Bool → List Char → List Char
  | _, [] => []
  | prevAlpha, c :: cs => titleChar prevAlpha c :: titleAux c.isAlpha cs

/-- Python `s.title()`. -/
def strTitle (s : String) : String :=
  ⟨titleAux false s.data⟩

/-- Decimal digits of a natural number, most significant first; `fuel`
bounds the recursion depth. -/
def natDigitsAux : ℕ → ℕ → List Char
  | 0, _ => []
  | fuel + 1, n =>
    if n = 0 then [] else natDigitsAux fuel (n / 10) ++ [Nat.digitChar (n % 10)]

/-- Decimal rendering of a natural number. -/
def natToStr (n : ℕ) : String :=
  if n = 0 then "0" else ⟨natDigitsAux (n + 1) n⟩

/-- Round `q` to the nearest integer multiple of one tenth, halves up:
the integer `⌊10 q + 1/2⌋` computed on the numerator and denominator. -/
def roundTenths (q : ℚ) : ℤ :=
  let p := q * 10
  Int.fdiv (2 * p.num + (p.den : ℤ)) (2 * (p.den : ℤ))

/-- Python fixed-point formatting `f"{x:.1f}"` of a rational.  Rounds to
one decimal place; at exact ties Python applies round-half-to-even on the
underlying double, while this model rounds half up — no input used in
this development hits a tie. -/
def fmt1 (q : ℚ) : String :=
  let n : ℤ := roundTenths q
  let sign := if n < 0 then "-" else ""
  let m := n.natAbs
  sign ++ natToStr (m / 10) ++ "." ++ natToStr (m % 10)

/-- Keyword test from `_generate_segment_caption`:
`any(word in query.lower() for word in ['blue', 'circle', 'red', 'strip'])`. -/
def queryHasKeyword (query : String) : Bool :=
  let lq := strLower query
  strContains lq "blue" || strContains lq "circle" ||
    strContains lq "red" || strContains lq "strip"

/-- Model of `SearchEngine._generate_segment_caption` (`search.py`).  The
`original_caption` is truthy in Python iff it is present and non-empty. -/
def generateSegmentCaption (start_time end_time : ℚ) (query : String)
    (original_caption : Option String) : String :=
  let duration := end_time - start_time
  let captionTruthy := match original_caption with
    | none => false
    | some c => c ≠ ""
  if captionTruthy && !strContains (original_caption.getD "") "Content at" then
    original_caption.getD "" ++ " (" ++ fmt1 start_time ++ "s-" ++ fmt1 end_time ++
      "s, " ++ fmt1 duration ++ "s duration)"
  else
    if query ≠ "" && queryHasKeyword query then
      let lq := strLower query
      let content_type :=
        if strContains lq "blue" || strContains lq "circle" then "blue circle content"
        else if strContains lq "red" || strContains lq "strip" then "red strip content"
        else "visual content"
      strTitle content_type ++ " from " ++ fmt1 start_time ++ "s to " ++
        fmt1 end_time ++ "s (" ++ fmt1 duration ++ "s duration)"
    else
      "Content from " ++ fmt1 start_time ++ "s to " ++ fmt1 end_time ++
        "s (" ++ fmt1 duration ++ "s duration)"

/-- Python `max(region, key=lambda f: f['similarity_score'])` starting
from first element `b`: keeps the current best and replaces it only on a
strictly larger key, so the first maximal element wins. -/
def maxBySim (b : Frame) (l : List Frame) : Frame :=
  l.foldl (fun acc f => if f.similarity_score > acc.similarity_score then f else acc) b

/-- Model of `SearchEngine._create_segment_from_region` (`search.py`). Returns
`none` exactly on the empty region (`if not region: return None`). -/
def createSegmentFromRegion (region : List Frame) (query : String) : Option Seg :=
  match region with
  | [] => none
  | f :: rest =>
    let start_time := f.timestamp_seconds
    let last_ts := (rest.getLastD f).timestamp_seconds
    let end_time := if start_time = last_ts then start_time + 1 else last_ts
    let best_frame := maxBySim f rest
    let avg_similarity := ((f :: rest).map (·.similarity_score)).sum / ((f :: rest).length : ℚ)
    some { start_time := start_time
           end_time := end_time
           start_frame := f.frame_number
           best_score := avg_similarity
           best_image := best_frame.pil_image
           keyframe_path := best_frame.keyframe_path
           caption := generateSegmentCaption start_time end_time query best_frame.caption }

/-- Grouping test of `_find_continuous_regions`: the next frame joins the
current region iff the time gap is within the adaptive `max_gap`
(2.0 s when the pair's average similarity is strictly above 0.3, else
1.0 s) and the score difference is at most 0.4. -/
def frameGroupCond (last_frame current_frame : Frame) : Bool :=
  let time_gap := current_frame.timestamp_seconds - last_frame.timestamp_seconds
  let avg_similarity := (current_frame.similarity_score + last_frame.similarity_score) / 2
  let max_gap : ℚ := if avg_similarity > 3/10 then 2 else 1
  let score_diff := |current_frame.similarity_score - last_frame.similarity_score|
  decide (time_gap ≤ max_gap) && decide (score_diff ≤ 2/5)

/-- Last frame of the current region `c :: cs` (Python
`current_region[-1]`). -/
def regLast (c : Frame) (cs : List Frame) : Frame :=
  cs.getLastD c

/-- Loop of `_find_continuous_regions`: the current region is
`c :: cs`; each remaining frame either extends it or closes it and
starts a fresh region. -/
def findRegionsAux (c : Frame) (cs : List Frame) : List Frame → List (List Frame)
  | [] => [c :: cs]
  | f :: rest =>
    if frameGroupCond (regLast c cs) f then findRegionsAux c (cs ++ [f]) rest
    else (c :: cs) :: findRegionsAux f [] rest

/-- Model of `SearchEngine._find_continuous_regions` (`search.py`). -/
def findContinuousRegions : List Frame → List (List Frame)
  | [] => []
  | f :: rest => findRegionsAux f [] rest

/-- Merge condition threshold of `_merge_close_segments`:
`merge_threshold + avg_score * 1.0` with `merge_threshold = 1.5`. -/
def mergeThreshold (current next_segment : Seg) : ℚ :=
  let avg_score := (current.best_score + next_segment.best_score) / 2
  3/2 + avg_score * 1

/-- Merge body of `_merge_close_segments`: extend `current` to
`next`'s end; adopt `next`'s score, image and keyframe path only when
`next` scores strictly higher; then regenerate the caption for the
widened span with no source caption. -/
def mergeStep (current next_segment : Seg) (query : String) : Seg :=
  let cur1 := { current with end_time := next_segment.end_time }
  let cur2 :=
    if next_segment.best_score > current.best_score then
      { cur1 with best_score := next_segment.best_score
                  best_image := next_segment.best_image
                  keyframe_path := next_segment.keyframe_path }
    else cur1
  { cur2 with caption := generateSegmentCaption cur2.start_time cur2.end_time query none }

/-- Loop of `_merge_close_segments` over the remaining segments. -/
def mergeAux (query : String) (current : Seg) : List Seg → List Seg
  | [] => [current]
  | n :: rest =>
    if n.start_time - current.end_time ≤ mergeThreshold current n then
      mergeAux query (mergeStep current n query) rest
    else current :: mergeAux query n rest

/-- Model of `SearchEngine._merge_close_segments` (`search.py`).  Lists of length
at most one are returned unchanged (`if len(segments) <= 1`). -/
def mergeCloseSegments (segments : List Seg) (query : String) : List Seg :=
  match segments with
  | [] => []
  | [s] => [s]
  | s :: rest => mergeAux query s rest

/-- The merge test of `_merge_close_segments` as a predicate:
`time_gap <= dynamic_threshold`. -/
def mergeCond (current next_segment : Seg) : Prop :=
  next_segment.start_time - current.end_time ≤ mergeThreshold current next_segment

instance : ∀ c n, Decidable (mergeCond c n) :=
  fun c n =>
    inferInstanceAs (Decidable (n.start_time - c.end_time ≤ mergeThreshold c n))

/-- Descending-score ordering used by Python
`sorted(segments, key=lambda x: x['best_score'], reverse=True)`; the
Python sort is stable and so is `List.insertionSort`. -/
def scoreDescRel (a b : Seg) : Prop :=
  b.best_score ≤ a.best_score

instance : DecidableRel scoreDescRel :=
  fun a b => inferInstanceAs (Decidable (b.best_score ≤ a.best_score))

instance : IsTotal Seg scoreDescRel :=
  ⟨fun a b => le_total b.best_score a.best_score⟩

instance : IsTrans Seg scoreDescRel :=
  ⟨fun _ _ _ h1 h2 => le_trans h2 h1⟩

/-- Model of `SearchEngine._filter_quality_segments` after its initial sort: the
empty input is returned as is, a single segment is returned as is, and
otherwise segments scoring below `max(0.3, best * 0.7)` are dropped,
keeping at least the best one. -/
def filterQualityAux : List Seg → List Seg
  | [] => []
  | [s] => [s]
  | best :: rest =>
    let best_score := best.best_score
    let score_threshold := max (3/10 : ℚ) (best_score * (7/10))
    let quality_segments :=
      (best :: rest).filter (fun s => decide (score_threshold ≤ s.best_score))
    if quality_segments = [] then [best] else quality_segments

/-- Model of `SearchEngine._filter_quality_segments` (`search.py`): sort by score
descending, then apply the quality threshold. -/
def filterQualitySegments (segments : List Seg) : List Seg :=
  filterQualityAux (segments.insertionSort scoreDescRel)

/-- The fixed relevance threshold of `_detect_content_boundaries`
(`similarity_threshold = 0.25`). -/
def similarityThreshold : ℚ := 1/4

/-- Relevance filter of `_detect_content_boundaries`: keep frames with
`similarity_score > 0.25`. -/
def relevantFrames (sorted_frames : List Frame) : List Frame :=
  sorted_frames.filter (fun f => decide (f.similarity_score > similarityThreshold))

/-- Model of `SearchEngine._detect_content_boundaries` (`search.py`): relevance
filter, region finding, per-region reduction, merging, quality filter. -/
def detectContentBoundaries (sorted_frames : List Frame) (query : String) : List Seg :=
  match sorted_frames with
  | [] => []
  | _ =>
    let relevant := relevantFrames sorted_frames
    if relevant = [] then []
    else
      let content_regions := findContinuousRegions relevant
      let segments := content_regions.filterMap (fun r => createSegmentFromRegion r query)
      let merged := mergeCloseSegments segments query
      filterQualitySegments merged

/-- Ascending-timestamp ordering used by
`sorted(extracted_frames, key=lambda x: x['timestamp_seconds'])`; the
Python sort is stable and so is `List.insertionSort`. -/
def tsRel (a b : Frame) : Prop :=
  a.timestamp_seconds ≤ b.timestamp_seconds

instance : DecidableRel tsRel :=
  fun a b => inferInstanceAs (Decidable (a.timestamp_seconds ≤ b.timestamp_seconds))

instance : IsTotal Frame tsRel :=
  ⟨fun a b => le_total a.timestamp_seconds b.timestamp_seconds⟩

instance : IsTrans Frame tsRel :=
  ⟨fun _ _ _ h1 h2 => le_trans h1 h2⟩

/-- Model of `SearchEngine._group_frames_into_segments` (`search.py`): the
segmentation entry point.  Sorts the incoming frames by timestamp, then
detects boundaries. -/
def groupFramesIntoSegments (extracted_frames : List Frame) (query : String) : List Seg :=
  match extracted_frames with
  | [] => []
  | _ =>
    let sorted_frames := extracted_frames.insertionSort tsRel
    detectContentBoundaries sorted_frames query

/-- An entry of the `similarities` list in
`extract_query_specific_frames` (`on_demand_extract.py`): the dict
`{'frame_info': ..., 'similarity': ...}`, with the fields of
`frame_info` that the selector reads or that distinguish frames. -/
structure SimItem where
  similarity : ℚ
  timestamp : ℚ
  frame_number : ℕ
  pil_image : ℕ
deriving DecidableEq

/-- Inner loop of `_select_temporally_diverse_frames`: a candidate is
diverse iff no already-selected timestamp is strictly within 0.5 s. -/
def isDiverseFrom (timestamp : ℚ) (timestamps : List ℚ) : Bool :=
  timestamps.all (fun selected_time => !decide (|timestamp - selected_time| < 1/2))

/-- First pass of `_select_temporally_diverse_frames`: greedily take
diverse candidates in the given order, breaking as soon as `top_k` are
selected.  `timestamps` mirrors the selected items' timestamps. -/
def diversePassAux (top_k : ℕ) :
    List SimItem → List SimItem → List ℚ → List SimItem
  | [], selected, _ => selected
  | item :: rest, selected, timestamps =>
    if isDiverseFrom item.timestamp timestamps then
      let selected2 := selected ++ [item]
      if top_k ≤ selected2.length then selected2
      else diversePassAux top_k rest selected2 (timestamps ++ [item.timestamp])
    else diversePassAux top_k rest selected timestamps

/-- Second pass of `_select_temporally_diverse_frames`: top up the
selection with not-yet-selected candidates, breaking at `top_k`. -/
def fillPassAux (top_k : ℕ) : List SimItem → List SimItem → List SimItem
  | [], selected => selected
  | item :: rest, selected =>
    if item ∉ selected then
      let selected2 := selected ++ [item]
      if top_k ≤ selected2.length then selected2
      else fillPassAux top_k rest selected2
    else fillPassAux top_k rest selected

/-- Model of `OnDemandExtractor._select_temporally_diverse_frames`
(`on_demand_extract.py`). -/
def selectTemporallyDiverseFrames (similarities : List SimItem) (top_k : ℕ) :
    List SimItem :=
  if similarities.length ≤ top_k then similarities.take top_k
  else
    let selected := diversePassAux top_k similarities [] []
    if selected.length < top_k then fillPassAux top_k similarities selected
    else selected

/-- A top-level search result as far as the final ordering step is
concerned: `result['score']` is the segment's `best_score`
(`search_on_demand`, `search.py`). -/
structure SearchResult where
  score : ℚ
  segment_id : String
deriving DecidableEq

/-- Descending-score ordering used by
`results.sort(key=lambda x: x['score'], reverse=True)`; the Python sort
is stable and so is `List.insertionSort`. -/
def resScoreDescRel (a b : SearchResult) : Prop :=
  b.score ≤ a.score

instance : DecidableRel resScoreDescRel :=
  fun a b => inferInstanceAs (Decidable (b.score ≤ a.score))

instance : IsTotal SearchResult resScoreDescRel :=
  ⟨fun a b => le_total b.score a.score⟩

instance : IsTrans SearchResult resScoreDescRel :=
  ⟨fun _ _ _ h1 h2 => le_trans h2 h1⟩

/-- Final ordering step of `search_on_demand` (`search.py` lines
125-127): sort results by score descending, then truncate to `top_k`. -/
def sortAndLimitResults (results : List SearchResult) (top_k : ℕ) :
    List SearchResult :=
  (results.insertionSort resScoreDescRel).take top_k

/-! ### Concrete fixtures used by witnesses and counterexamples -/

/-- A frame at `t = 0` with score `0.8`. -/
def wF1 : Frame :=
  { frame_number := 0, timestamp_seconds := 0, similarity_score := 8/10,
    pil_image := 1, keyframe_path := none, caption := none }

/-- A frame at `t = 10` with score `0.9`. -/
def wF2 : Frame :=
  { frame_number := 40, timestamp_seconds := 10, similarity_score := 9/10,
    pil_image := 2, keyframe_path := none, caption := none }

/-- A segment 0.0-1.0 s with score `0.5` and caption `"X"`. -/
def wX : Seg :=
  { start_time := 0, end_time := 1, start_frame := 0, best_score := 1/2,
    best_image := 1, keyframe_path := none, caption := "X" }

/-- A segment 1.5-2.0 s with score `0.4` and caption `"Y"`. -/
def wY : Seg :=
  { start_time := 3/2, end_time := 2, start_frame := 5, best_score := 2/5,
    best_image := 2, keyframe_path := none, caption := "Y" }

/-- A segment 0.0-1.0 s with score `0.5`. -/
def w9A : Seg :=
  { start_time := 0, end_time := 1, start_frame := 0, best_score := 1/2,
    best_image := 1, keyframe_path := none, caption := "A" }

/-- A segment 3.0-4.0 s with score `0.0`. -/
def w9B : Seg :=
  { start_time := 3, end_time := 4, start_frame := 10, best_score := 0,
    best_image := 2, keyframe_path := none, caption := "B" }

/-- A segment 4.1-5.0 s with score `0.9`. -/
def w9C : Seg :=
  { start_time := 41/10, end_time := 5, start_frame := 20, best_score := 9/10,
    best_image := 3, keyframe_path := none, caption := "C" }

/-- A frame at `t = 0` with score `0.6` and no caption. -/
def w7a : Frame :=
  { frame_number := 0, timestamp_seconds := 0, similarity_score := 6/10,
    pil_image := 5, keyframe_path := none, caption := none }

/-- A frame at `t = 2` with score `0.9` and no caption. -/
def w7b : Frame :=
  { frame_number := 8, timestamp_seconds := 2, similarity_score := 9/10,
    pil_image := 6, keyframe_path := none, caption := none }

/-- A segment scoring `0.9` (the quality-filter example's best). -/
def w8a : Seg :=
  { start_time := 0, end_time := 1, start_frame := 0, best_score := 9/10,
    best_image := 1, keyframe_path := none, caption := "a" }

/-- A segment scoring `0.5`. -/
def w8b : Seg :=
  { start_time := 2, end_time := 3, start_frame := 4, best_score := 1/2,
    best_image := 2, keyframe_path := none, caption := "b" }

/-- A segment scoring `0.2`. -/
def w8c : Seg :=
  { start_time := 5, end_time := 6, start_frame := 8, best_score := 1/5,
    best_image := 3, keyframe_path := none, caption := "c" }

/-- A frame at `t = 0` with score `0.8` carrying the source caption
`"A video frame"`. -/
def w3f : Frame :=
  { frame_number := 0, timestamp_seconds := 0, similarity_score := 4/5,
    pil_image := 7, keyframe_path := none, caption := some "A video frame" }

/-- The segment the reducer builds from the one-frame region `[w3f]`
for the query `"cat"`. -/
def w3seg : Seg :=
  { start_time := 0, end_time := 1, start_frame := 0, best_score := 4/5,
    best_image := 7, keyframe_path := none,
    caption := "A video frame (0.0s-1.0s, 1.0s duration)" }

/-- A frame at `t = 1` with score `0.8` and no caption, used with a
keyword-bearing query. -/
def w3g : Frame :=
  { frame_number := 4, timestamp_seconds := 1, similarity_score := 8/10,
    pil_image := 3, keyframe_path := none, caption := none }

/-- A frame at `t = 0` with score `0.5` carrying the caption
`"A video frame"`; merges with `w3m2`. -/
def w3m1 : Frame :=
  { frame_number := 0, timestamp_seconds := 0, similarity_score := 1/2,
    pil_image := 11, keyframe_path := none, caption := some "A video frame" }

/-- A frame at `t = 2.5` with score `0.5` carrying the caption
`"A video frame"`; merges with `w3m1`. -/
def w3m2 : Frame :=
  { frame_number := 10, timestamp_seconds := 5/2, similarity_score := 1/2,
    pil_image := 12, keyframe_path := none, caption := some "A video frame" }

/-- A selector item at `t = 0`. -/
def w4i : SimItem :=
  { similarity := 9/10, timestamp := 0, frame_number := 0, pil_image := 0 }

/-- A selector item at `t = 5`. -/
def w4j : SimItem :=
  { similarity := 8/10, timestamp := 5, frame_number := 3, pil_image := 1 }

/-- The first segment the pipeline returns for `[wF1, wF2]` and the
query `"cat"`. -/
def w2seg : Seg :=
  { start_time := 10, end_time := 11, start_frame := 40, best_score := 9/10,
    best_image := 2, keyframe_path := none,
    caption := "Content from 10.0s to 11.0s (1.0s duration)" }

/-! ### Region-finding lemmas -/

/-- The value `regLast c cs` is the last element of the region `c :: cs`. -/
theorem getLast?_eq_regLast (c : Frame) (cs : List Frame) :
    (c :: cs).getLast? = some (regLast c cs) := by
  induction cs generalizing c with
  | nil => rfl
  | cons d ds ih =>
    rw [List.getLast?_cons_cons, ih d]
    unfold regLast
    rw [List.getLastD_cons]

/-- The regions produced by the region-finding loop concatenate back to
the input frames. -/
theorem findRegionsAux_join (rest : List Frame) :
    ∀ (c : Frame) (cs : List Frame),
      (findRegionsAux c cs rest).flatten = (c :: cs) ++ rest := by
  induction rest with
  | nil => intro c cs; simp [findRegionsAux]
  | cons f rest ih =>
    intro c cs
    cases h : frameGroupCond (regLast c cs) f with
    | true => simp [findRegionsAux, h, ih]
    | false => simp [findRegionsAux, h, ih]

/-- Every region produced by the region-finding loop is non-empty. -/
theorem findRegionsAux_ne_nil (rest : List Frame) :
    ∀ (c : Frame) (cs : List Frame), ∀ r ∈ findRegionsAux c cs rest, r ≠ [] := by
  induction rest with
  | nil => intro c cs r hr; simp [findRegionsAux] at hr; simp [hr]
  | cons f rest ih =>
    intro c cs r hr
    cases h : frameGroupCond (regLast c cs) f with
    | true =>
      rw [findRegionsAux, h] at hr
      exact ih c (cs ++ [f]) r (by simpa using hr)
    | false =>
      rw [findRegionsAux, h] at hr
      rcases List.mem_cons.mp (by simpa using hr) with h1 | h1
      · simp [h1]
      · exact ih f [] r h1

/-- The first region produced by the region-finding loop starts with the
current region's first frame. -/
theorem findRegionsAux_head (rest : List Frame) :
    ∀ (c : Frame) (cs : List Frame),
      ∃ t rs, findRegionsAux c cs rest = (c :: t) :: rs := by
  induction rest with
  | nil => intro c cs; exact ⟨cs, [], rfl⟩
  | cons f rest ih =>
    intro c cs
    cases h : frameGroupCond (regLast c cs) f with
    | true =>
      obtain ⟨t, rs, ht⟩ := ih c (cs ++ [f])
      exact ⟨t, rs, by rw [findRegionsAux, h]; simpa using ht⟩
    | false =>
      exact ⟨cs, findRegionsAux f [] rest, by rw [findRegionsAux, h]; simp⟩

/-- Within every produced region, consecutive frames satisfy the
grouping condition. -/
theorem findRegionsAux_chain (rest : List Frame) :
    ∀ (c : Frame) (cs : List Frame),
      List.Chain' (fun a b => frameGroupCond a b = true) (c :: cs) →
      ∀ r ∈ findRegionsAux c cs rest,
        List.Chain' (fun a b => frameGroupCond a b = true) r := by
  induction rest with
  | nil =>
    intro c cs hch r hr
    simp [findRegionsAux] at hr; simpa [hr] using hch
  | cons f rest ih =>
    intro c cs hch r hr
    cases h : frameGroupCond (regLast c cs) f with
    | true =>
      rw [findRegionsAux, h] at hr
      refine ih c (cs ++ [f]) ?_ r (by simpa using hr)
      have : (c :: cs) ++ [f] = c :: (cs ++ [f]) := by simp
      rw [← this]
      refine List.chain'_append.mpr ⟨hch, List.chain'_singleton f, ?_⟩
      intro x hx y hy
      rw [getLast?_eq_regLast] at hx
      simp at hx hy
      rw [← hx, ← hy]; exact h
    | false =>
      rw [findRegionsAux, h] at hr
      rcases List.mem_cons.mp (by simpa using hr) with h1 | h1
      · simpa [h1] using hch
      · exact ih f [] (List.chain'_singleton f) r h1

/-- Consecutive produced regions are separated by a failing grouping
condition between the last frame of one and the first frame of the
next. -/
theorem findRegionsAux_boundary (rest : List Frame) :
    ∀ (c : Frame) (cs : List Frame),
      List.Chain'
        (fun r1 r2 => ∀ x ∈ r1.getLast?, ∀ y ∈ r2.head?, frameGroupCond x y = false)
        (findRegionsAux c cs rest) := by
  induction rest with
  | nil => intro c cs; simp [findRegionsAux]
  | cons f rest ih =>
    intro c cs
    cases h : frameGroupCond (regLast c cs) f with
    | true => rw [findRegionsAux, h]; exact ih c (cs ++ [f])
    | false =>
      rw [findRegionsAux, h]
      refine List.chain'_cons'.mpr ⟨?_, ih f []⟩
      intro r hr x hx y hy
      obtain ⟨t, rs, ht⟩ := findRegionsAux_head rest f []
      rw [ht] at hr
      simp at hr
      rw [← hr] at hy
      simp at hy
      rw [getLast?_eq_regLast] at hx
      simp at hx
      rw [← hx, ← hy]
      exact h

/-- Pointwise equivalence of the relevance filter's keep-predicate and
the complement of the drop-predicate. -/
theorem decide_gt_eq_not_decide_le (q : ℚ) :
    decide (q > similarityThreshold) = !decide (q ≤ similarityThreshold) := by
  by_cases h : q ≤ similarityThreshold
  · simp [h, not_lt.mpr h]
  · simp [h, lt_of_not_le h]

/-- C5.  For every frames input, the Boundary Detector's relevance
filter drops exactly the frames with `similarity_score <= 0.25`; if none
remain the detector returns an empty list; otherwise the region-finding
walk partitions the remaining frames, in order, into non-empty regions
whose consecutive frames satisfy the adaptive gap/score condition
(`time_gap <= max_gap` and `score_diff <= 0.4`, with `max_gap = 2.0`
when the pair's average score is strictly above `0.3` and `1.0`
otherwise), and the condition fails between the last frame of one region
and the first frame of the next. -/
theorem claim_C5 (frames : List Frame) (query : String) :
    relevantFrames frames =
      frames.filter (fun f => !decide (f.similarity_score ≤ similarityThreshold))
    ∧ (relevantFrames frames = [] → detectContentBoundaries frames query = [])
    ∧ (findContinuousRegions (relevantFrames frames)).flatten = relevantFrames frames
    ∧ (∀ r ∈ findContinuousRegions (relevantFrames frames),
        r ≠ [] ∧ List.Chain' (fun a b => frameGroupCond a b = true) r)
    ∧ List.Chain'
        (fun r1 r2 => ∀ x ∈ r1.getLast?, ∀ y ∈ r2.head?, frameGroupCond x y = false)
        (findContinuousRegions (relevantFrames frames)) := by
  refine ⟨?_, ?_, ?_, ?_, ?_⟩
  · exact List.filter_congr (fun f _ => decide_gt_eq_not_decide_le f.similarity_score)
  · intro h
    cases frames with
    | nil => rfl
    | cons f rest =>
      rw [detectContentBoundaries]
      simp [h]
      intro hcon
      exact absurd hcon (List.cons_ne_nil f rest)
  · cases h : relevantFrames frames with
    | nil => simp [findContinuousRegions]
    | cons f rest => exact findRegionsAux_join rest f []
  · intro r hr
    cases h : relevantFrames frames with
    | nil => rw [h] at hr; simp [findContinuousRegions] at hr
    | cons f rest =>
      rw [h] at hr
      exact ⟨findRegionsAux_ne_nil rest f [] r hr,
        findRegionsAux_chain rest f [] (List.chain'_singleton f) r hr⟩
  · cases h : relevantFrames frames with
    | nil => simp [findContinuousRegions]
    | cons f rest => exact findRegionsAux_boundary rest f []

/-- C5 witness: a concrete instantiation of the conditional part of the
claim: a frames list in which every score is at or below the threshold
is mapped to no segments at all. -/
theorem claim_C5_witness :
    detectContentBoundaries
      [{ wF1 with similarity_score := 1/10 }, { wF2 with similarity_score := 1/4 }]
      "cat" = [] :=
  (claim_C5 [{ wF1 with similarity_score := 1/10 },
    { wF2 with similarity_score := 1/4 }] "cat").2.1 (by decide)

/-- The entry point on a non-empty frames list unfolds to boundary
detection over the timestamp-sorted frames. -/
theorem groupFrames_cons (f : Frame) (rest : List Frame) (query : String) :
    groupFramesIntoSegments (f :: rest) query =
      detectContentBoundaries ((f :: rest).insertionSort tsRel) query := rfl

/-- C1 (amended).  The segmentation entry point silently re-sorts its
input by timestamp: its result on any frames list equals its result on
the timestamp-sorted frames list, and no input is rejected — there is no
`InvalidInput` error in the code. -/
theorem claim_C1 (frames : List Frame) (query : String) :
    groupFramesIntoSegments frames query =
      groupFramesIntoSegments (frames.insertionSort tsRel) query := by
  cases frames with
  | nil => rfl
  | cons f rest =>
    have hsorted : List.Sorted tsRel ((f :: rest).insertionSort tsRel) :=
      List.sorted_insertionSort tsRel (f :: rest)
    have hidem : ((f :: rest).insertionSort tsRel).insertionSort tsRel
        = (f :: rest).insertionSort tsRel := hsorted.insertionSort_eq
    cases hs : (f :: rest).insertionSort tsRel with
    | nil =>
      have hperm := List.perm_insertionSort tsRel (f :: rest)
      rw [hs] at hperm
      exact absurd hperm.symm (by simp)
    | cons g grest =>
      rw [groupFrames_cons, groupFrames_cons, ← hs, hidem]

/-- C1 counterexample: a frames list given in strictly decreasing
timestamp order (hence not sorted ascending) is not rejected: the entry
point returns the same non-empty segment list as for the sorted input,
demonstrating a silent re-sort instead of an `InvalidInput` failure. -/
theorem claim_C1_counterexample :
    wF1.timestamp_seconds < wF2.timestamp_seconds
    ∧ groupFramesIntoSegments [wF2, wF1] "cat" = groupFramesIntoSegments [wF1, wF2] "cat"
    ∧ groupFramesIntoSegments [wF2, wF1] "cat" ≠ [] := by
  refine ⟨by decide, by decide, by decide⟩

/-! ### Segment-merging lemmas -/

/-- One merge step never moves the segment's start. -/
theorem mergeStep_start (c n : Seg) (q : String) :
    (mergeStep c n q).start_time = c.start_time := by
  rw [mergeStep]
  by_cases h : n.best_score > c.best_score <;> simp [h]

/-- One merge step sets the end to the absorbed segment's end. -/
theorem mergeStep_end (c n : Seg) (q : String) :
    (mergeStep c n q).end_time = n.end_time := by
  rw [mergeStep]
  by_cases h : n.best_score > c.best_score <;> simp [h]

/-- One merge step keeps one of the two scores: the absorbed segment's
score exactly when it is strictly larger. -/
theorem mergeStep_score (c n : Seg) (q : String) :
    (mergeStep c n q).best_score =
      if n.best_score > c.best_score then n.best_score else c.best_score := by
  rw [mergeStep]
  by_cases h : n.best_score > c.best_score <;> simp [h]

/-- The merge loop never lengthens the list. -/
theorem mergeAux_length (q : String) :
    ∀ (rest : List Seg) (c : Seg), (mergeAux q c rest).length ≤ rest.length + 1 := by
  intro rest
  induction rest with
  | nil => intro c; simp [mergeAux]
  | cons n rest ih =>
    intro c
    rw [mergeAux]
    by_cases h : n.start_time - c.end_time ≤ mergeThreshold c n
    · simp only [h, if_true]
      exact le_trans (ih (mergeStep c n q)) (by simp)
    · simp only [h, if_false, List.length_cons]
      exact Nat.succ_le_succ (ih n)

/-- The merge loop's output is non-empty and starts at the current
segment's start time. -/
theorem mergeAux_head (q : String) :
    ∀ (rest : List Seg) (c : Seg),
      ∃ h t, mergeAux q c rest = h :: t ∧ h.start_time = c.start_time := by
  intro rest
  induction rest with
  | nil => intro c; exact ⟨c, [], rfl, rfl⟩
  | cons n rest ih =>
    intro c
    rw [mergeAux]
    by_cases h : n.start_time - c.end_time ≤ mergeThreshold c n
    · obtain ⟨hd, t, hout, hstart⟩ := ih (mergeStep c n q)
      exact ⟨hd, t, by simp [h, hout], by rw [hstart, mergeStep_start]⟩
    · obtain ⟨hd, t, hout, hstart⟩ := ih n
      exact ⟨c, mergeAux q n rest, by simp [h], rfl⟩

/-- The merge loop preserves sortedness by start time. -/
theorem mergeAux_chain_start (q : String) :
    ∀ (rest : List Seg) (c : Seg),
      List.Chain' (fun a b => a.start_time ≤ b.start_time) (c :: rest) →
      List.Chain' (fun a b => a.start_time ≤ b.start_time) (mergeAux q c rest) := by
  intro rest
  induction rest with
  | nil => intro c _; simp [mergeAux]
  | cons n rest ih =>
    intro c hch
    obtain ⟨hcn, hch'⟩ := List.chain'_cons.mp hch
    rw [mergeAux]
    by_cases h : n.start_time - c.end_time ≤ mergeThreshold c n
    · simp only [h, if_true]
      refine ih (mergeStep c n q) ?_
      refine List.chain'_cons'.mpr ⟨?_, (List.chain'_cons'.mp hch').2⟩
      intro y hy
      have := (List.chain'_cons'.mp hch').1 y hy
      rw [mergeStep_start]
      exact le_trans hcn this
    · simp only [h, if_false]
      refine List.chain'_cons'.mpr ⟨?_, ih n hch'⟩
      obtain ⟨hd, t, hout, hstart⟩ := mergeAux_head q rest n
      rw [hout]
      intro y hy
      simp at hy
      rw [← hy, hstart]
      exact hcn

/-- If every score is non-negative, consecutive segments in the merge
loop's output never overlap: each ends strictly before the next starts. -/
theorem mergeAux_disjoint (q : String) :
    ∀ (rest : List Seg) (c : Seg), 0 ≤ c.best_score → (∀ s ∈ rest, 0 ≤ s.best_score) →
      List.Chain' (fun a b => a.end_time ≤ b.start_time) (mergeAux q c rest) := by
  intro rest
  induction rest with
  | nil => intro c _ _; simp [mergeAux]
  | cons n rest ih =>
    intro c hc hrest
    have hn : 0 ≤ n.best_score := hrest n (by simp)
    have hrest' : ∀ s ∈ rest, 0 ≤ s.best_score := fun s hs => hrest s (by simp [hs])
    rw [mergeAux]
    by_cases h : n.start_time - c.end_time ≤ mergeThreshold c n
    · simp only [h, if_true]
      refine ih (mergeStep c n q) ?_ hrest'
      rw [mergeStep_score]
      by_cases h2 : n.best_score > c.best_score <;> simp [h2, hc, hn]
    · simp only [h, if_false]
      refine List.chain'_cons'.mpr ⟨?_, ih n hn hrest'⟩
      obtain ⟨hd, t, hout, hstart⟩ := mergeAux_head q rest n
      rw [hout]
      intro y hy
      simp at hy
      rw [← hy, hstart]
      have hthr : (0 : ℚ) ≤ mergeThreshold c n := by
        rw [mergeThreshold]
        have : (0 : ℚ) ≤ (c.best_score + n.best_score) / 2 := by positivity
        linarith
      have := lt_of_not_le h
      linarith

/-- If every segment satisfies `start <= end` and the list is sorted by
start time, the merge loop preserves `start <= end` for every output
segment. -/
theorem mergeAux_start_le_end (q : String) :
    ∀ (rest : List Seg) (c : Seg), c.start_time ≤ c.end_time →
      (∀ s ∈ rest, s.start_time ≤ s.end_time) →
      List.Chain' (fun a b => a.start_time ≤ b.start_time) (c :: rest) →
      ∀ s ∈ mergeAux q c rest, s.start_time ≤ s.end_time := by
  intro rest
  induction rest with
  | nil => intro c hc _ _ s hs; simp [mergeAux] at hs; simp [hs, hc]
  | cons n rest ih =>
    intro c hc hrest hch s hs
    obtain ⟨hcn, hch'⟩ := List.chain'_cons.mp hch
    have hn : n.start_time ≤ n.end_time := hrest n (by simp)
    have hrest' : ∀ x ∈ rest, x.start_time ≤ x.end_time := fun x hx => hrest x (by simp [hx])
    rw [mergeAux] at hs
    by_cases h : n.start_time - c.end_time ≤ mergeThreshold c n
    · simp only [h, if_true] at hs
      refine ih (mergeStep c n q) ?_ hrest' ?_ s hs
      · rw [mergeStep_start, mergeStep_end]
        exact le_trans hcn hn
      · refine List.chain'_cons'.mpr ⟨?_, (List.chain'_cons'.mp hch').2⟩
        intro y hy
        have := (List.chain'_cons'.mp hch').1 y hy
        rw [mergeStep_start]
        exact le_trans hcn this
    · simp only [h, if_false] at hs
      rcases List.mem_cons.mp hs with h1 | h1
      · rw [h1]; exact hc
      · exact ih n hn hrest' hch' s h1

/-- C6 (amended).  The Segment Merger merges the next segment into the
current one iff `next.start_time - current.end_time <=
1.5 + ((current.score + next.score)/2) * 1.0` seconds
(`mergeThreshold`), setting `current.end_time = next.end_time` and,
exactly when `next.score > current.score`, replacing current's score,
representative image and keyframe path; on every merge (not only on
score replacement) the caption is regenerated from the widened time span
with no source caption.  The output length is at most the input length
and chronological order is preserved. -/
theorem claim_C6 (segments : List Seg) (query : String) :
    (mergeCloseSegments segments query).length ≤ segments.length
    ∧ (List.Chain' (fun a b => a.start_time ≤ b.start_time) segments →
        List.Chain' (fun a b => a.start_time ≤ b.start_time)
          (mergeCloseSegments segments query))
    ∧ ∀ c n : Seg, mergeCloseSegments [c, n] query =
        if n.start_time - c.end_time ≤ mergeThreshold c n then
          [{ start_time := c.start_time
             end_time := n.end_time
             start_frame := c.start_frame
             best_score := if c.best_score < n.best_score then n.best_score else c.best_score
             best_image := if c.best_score < n.best_score then n.best_image else c.best_image
             keyframe_path :=
               if c.best_score < n.best_score then n.keyframe_path else c.keyframe_path
             caption := generateSegmentCaption c.start_time n.end_time query none }]
        else [c, n] := by
  refine ⟨?_, ?_, ?_⟩
  · match segments with
    | [] => simp [mergeCloseSegments]
    | [s] => simp [mergeCloseSegments]
    | s :: n :: rest =>
      show (mergeAux query s (n :: rest)).length ≤ (s :: n :: rest).length
      exact le_trans (mergeAux_length query (n :: rest) s) (by simp)
  · intro hch
    match segments with
    | [] => simp [mergeCloseSegments]
    | [s] => simp [mergeCloseSegments]
    | s :: n :: rest => exact mergeAux_chain_start query (n :: rest) s hch
  · intro c n
    show mergeAux query c [n] = _
    rw [mergeAux]
    by_cases h : n.start_time - c.end_time ≤ mergeThreshold c n
    · simp only [h, if_true]
      show [mergeStep c n query] = _
      rcases c with ⟨cst, cen, cfr, csc, cim, ckp, ccap⟩
      rcases n with ⟨nst, nen, nfr, nsc, nim, nkp, ncap⟩
      by_cases h2 : csc < nsc <;> simp [mergeStep, gt_iff_lt, h2]
    · simp only [h, if_false]
      rfl

/-- C6 witness: at two concrete close segments the merger preserves
chronological (start-time) order. -/
theorem claim_C6_witness :
    List.Chain' (fun a b => a.start_time ≤ b.start_time)
      (mergeCloseSegments [wX, wY] "cat") :=
  (claim_C6 [wX, wY] "cat").2.1 (List.chain'_pair.mpr (by decide))

/-- C6 counterexample: two mergeable segments where the next one scores
lower.  The merge happens (the end time is extended), and although
`next.score <= current.score`, the caption is still regenerated: the
result differs from the claim's prediction that only `end_time`
changes. -/
theorem claim_C6_counterexample :
    wY.best_score ≤ wX.best_score
    ∧ (mergeCloseSegments [wX, wY] "cat").map (fun s => s.end_time) = [wY.end_time]
    ∧ mergeCloseSegments [wX, wY] "cat" ≠ [{ wX with end_time := wY.end_time }] :=
  ⟨by decide, by decide, by decide⟩

/-- When no adjacent pair satisfies the merge condition, the merge loop
returns its input unchanged. -/
theorem mergeAux_of_no_cond (q : String) :
    ∀ (rest : List Seg) (c : Seg),
      List.Chain' (fun a b => ¬ mergeCond a b) (c :: rest) →
      mergeAux q c rest = c :: rest := by
  intro rest
  induction rest with
  | nil => intro c _; rfl
  | cons n rest ih =>
    intro c hch
    obtain ⟨hcn, hch'⟩ := List.chain'_cons.mp hch
    rw [mergeAux,
      if_neg (show ¬ n.start_time - c.end_time ≤ mergeThreshold c n from hcn),
      ih n hch']

/-- A list on which no adjacent pair merges is a fixed point of the
merger. -/
theorem mergeCloseSegments_of_no_cond (q : String) (l : List Seg)
    (h : List.Chain' (fun a b => ¬ mergeCond a b) l) :
    mergeCloseSegments l q = l := by
  match l with
  | [] => rfl
  | [s] => rfl
  | s :: n :: rest => exact mergeAux_of_no_cond q (n :: rest) s h

/-- On a segment list whose scores never increase, the merge loop never
promotes the running segment's score, so no adjacent pair of its output
satisfies the merge condition, and the output head keeps the first
segment's start time and score. -/
theorem mergeAux_desc (q : String) :
    ∀ (rest : List Seg) (c : Seg),
      List.Pairwise (fun a b => b.best_score ≤ a.best_score) (c :: rest) →
      List.Chain' (fun a b => ¬ mergeCond a b) (mergeAux q c rest)
      ∧ ∃ h t, mergeAux q c rest = h :: t ∧ h.start_time = c.start_time
          ∧ h.best_score = c.best_score := by
  intro rest
  induction rest with
  | nil => intro c _; exact ⟨List.chain'_singleton c, c, [], rfl, rfl, rfl⟩
  | cons n rest ih =>
    intro c hp
    obtain ⟨hhead, htail⟩ := List.pairwise_cons.mp hp
    have hcn : n.best_score ≤ c.best_score := hhead n (by simp)
    rw [mergeAux]
    by_cases h : mergeCond c n
    · rw [if_pos (show n.start_time - c.end_time ≤ mergeThreshold c n from h)]
      have hscore : (mergeStep c n q).best_score = c.best_score := by
        rw [mergeStep_score, if_neg (not_lt.mpr hcn)]
      have hp' : List.Pairwise (fun a b => b.best_score ≤ a.best_score)
          (mergeStep c n q :: rest) := by
        refine List.pairwise_cons.mpr ⟨?_, (List.pairwise_cons.mp htail).2⟩
        intro x hx
        rw [hscore]
        exact hhead x (by simp [hx])
      obtain ⟨hch, hd, t, heq, hstart, hsc⟩ := ih (mergeStep c n q) hp'
      exact ⟨hch, hd, t, heq, by rw [hstart, mergeStep_start],
        by rw [hsc, hscore]⟩
    · rw [if_neg (show ¬ n.start_time - c.end_time ≤ mergeThreshold c n from h)]
      obtain ⟨hch, hd, t, heq, hstart, hsc⟩ := ih n htail
      refine ⟨?_, c, mergeAux q n rest, rfl, rfl, rfl⟩
      refine List.chain'_cons'.mpr ⟨?_, hch⟩
      intro y hy
      rw [heq] at hy
      simp at hy
      rw [← hy]
      intro hcond
      apply h
      unfold mergeCond at hcond ⊢
      rw [hstart] at hcond
      have hthr : mergeThreshold c hd = mergeThreshold c n := by
        unfold mergeThreshold
        rw [hsc]
      rw [hthr] at hcond
      exact hcond

/-- C9 (amended).  On a segment list sorted by start time whose scores
are non-increasing in time order, the Segment Merger is idempotent: no
merge can promote a kept segment's score, so a second pass finds every
remaining gap still above its threshold.  (In general the merger is not
idempotent: a merge that raises a later segment's score widens its
dynamic threshold on the next pass — see the counterexample.) -/
theorem claim_C9 (segments : List Seg) (query : String)
    (hdesc : List.Pairwise (fun a b => b.best_score ≤ a.best_score) segments) :
    mergeCloseSegments (mergeCloseSegments segments query) query =
      mergeCloseSegments segments query := by
  match segments with
  | [] => rfl
  | [s] => rfl
  | s :: n :: rest =>
    have h := mergeAux_desc query (n :: rest) s hdesc
    exact mergeCloseSegments_of_no_cond query _ h.1

/-- C9 witness: the merger is idempotent on a concrete two-segment list
with non-increasing scores. -/
theorem claim_C9_witness :
    mergeCloseSegments (mergeCloseSegments [wX, wY] "dog") "dog" =
      mergeCloseSegments [wX, wY] "dog" :=
  claim_C9 [wX, wY] "dog"
    (List.pairwise_cons.mpr
      ⟨fun x hx => by simp at hx; rw [hx]; decide, List.pairwise_singleton _ _⟩)

/-- C9 counterexample: three segments sorted by start time with
pairwise disjoint ranges.  The first pass merges the last two and
promotes the middle segment's score from `0.0` to `0.9`; on a second
pass the widened dynamic threshold (`1.5 + 0.7 = 2.2`, at least the
`2.0` gap) merges what the first pass kept apart, so the merger is not a
fixed point after one pass. -/
theorem claim_C9_counterexample :
    w9A.start_time ≤ w9B.start_time ∧ w9B.start_time ≤ w9C.start_time
    ∧ w9A.end_time ≤ w9B.start_time ∧ w9B.end_time ≤ w9C.start_time
    ∧ mergeCloseSegments (mergeCloseSegments [w9A, w9B, w9C] "dog") "dog" ≠
        mergeCloseSegments [w9A, w9B, w9C] "dog" :=
  ⟨by decide, by decide, by decide, by decide, by decide⟩

/-- Unfolding of the representative-frame fold over a cons cell. -/
theorem maxBySim_cons (b f : Frame) (t : List Frame) :
    maxBySim b (f :: t) =
      maxBySim (if f.similarity_score > b.similarity_score then f else b) t := rfl

/-- The representative frame is one of the region's frames. -/
theorem maxBySim_mem (l : List Frame) : ∀ b, maxBySim b l ∈ b :: l := by
  induction l with
  | nil => intro b; simp [maxBySim]
  | cons f t ih =>
    intro b
    rw [maxBySim_cons]
    by_cases h : f.similarity_score > b.similarity_score
    · rw [if_pos h]
      rcases List.mem_cons.mp (ih f) with h1 | h1
      · simp [h1]
      · simp [h1]
    · rw [if_neg h]
      rcases List.mem_cons.mp (ih b) with h1 | h1
      · simp [h1]
      · simp [h1]

/-- The representative frame has the maximal score in the region. -/
theorem maxBySim_le (l : List Frame) :
    ∀ b, ∀ x ∈ b :: l, x.similarity_score ≤ (maxBySim b l).similarity_score := by
  induction l with
  | nil =>
    intro b x hx
    simp at hx
    simp [maxBySim, hx]
  | cons f t ih =>
    intro b x hx
    rw [maxBySim_cons]
    have hf : f.similarity_score ≤
        (maxBySim (if f.similarity_score > b.similarity_score then f else b) t).similarity_score := by
      by_cases h : f.similarity_score > b.similarity_score
      · rw [if_pos h]; exact ih f f (by simp)
      · rw [if_neg h]
        exact le_trans (not_lt.mp h) (ih b b (by simp))
    rcases List.mem_cons.mp hx with h1 | h1
    · by_cases h : f.similarity_score > b.similarity_score
      · rw [if_pos h]
        rw [h1]
        exact le_trans (le_of_lt h) (ih f f (by simp))
      · rw [if_neg h]
        rw [h1]
        exact ih b b (by simp)
    · rcases List.mem_cons.mp h1 with h2 | h2
      · rw [h2]; exact hf
      · by_cases h : f.similarity_score > b.similarity_score
        · rw [if_pos h]; exact ih f x (by simp [h2])
        · rw [if_neg h]; exact ih b x (by simp [h2])

/-- The fold either returns its seed or a frame with a strictly larger
score: an equal-scoring later frame never replaces the seed. -/
theorem maxBySim_eq_or_lt (l : List Frame) :
    ∀ b, maxBySim b l = b ∨ b.similarity_score < (maxBySim b l).similarity_score := by
  induction l with
  | nil => intro b; left; rfl
  | cons f t ih =>
    intro b
    rw [maxBySim_cons]
    by_cases h : f.similarity_score > b.similarity_score
    · rw [if_pos h]
      right
      rcases ih f with h1 | h1
      · rw [h1]; exact h
      · exact lt_trans h h1
    · rw [if_neg h]; exact ih b

/-- On a region with strictly increasing timestamps, the representative
frame is the earliest frame achieving the maximal score. -/
theorem maxBySim_earliest (l : List Frame) :
    ∀ b, List.Pairwise (fun a c => a.timestamp_seconds < c.timestamp_seconds) (b :: l) →
      ∀ x ∈ b :: l, x.similarity_score = (maxBySim b l).similarity_score →
        (maxBySim b l).timestamp_seconds ≤ x.timestamp_seconds := by
  induction l with
  | nil =>
    intro b _ x hx _
    simp at hx
    simp [maxBySim, hx]
  | cons f t ih =>
    intro b hp x hx hsim
    obtain ⟨hhead, htail⟩ := List.pairwise_cons.mp hp
    rw [maxBySim_cons] at hsim ⊢
    by_cases h : f.similarity_score > b.similarity_score
    · rw [if_pos h] at hsim ⊢
      rcases List.mem_cons.mp hx with h1 | h1
      · exfalso
        have hle : f.similarity_score ≤ (maxBySim f t).similarity_score :=
          maxBySim_le t f f (by simp)
        rw [h1] at hsim
        have hlt : b.similarity_score < (maxBySim f t).similarity_score :=
          lt_of_lt_of_le h hle
        rw [hsim] at hlt
        exact lt_irrefl _ hlt
      · exact ih f htail x h1 hsim
    · rw [if_neg h] at hsim ⊢
      have hbmax : b.similarity_score ≤ (maxBySim b t).similarity_score :=
        maxBySim_le t b b (by simp)
      rcases List.mem_cons.mp hx with h1 | h1
      · rcases maxBySim_eq_or_lt t b with h2 | h2
        · rw [h2, h1]
        · exfalso
          rw [h1] at hsim
          rw [← hsim] at h2
          exact lt_irrefl _ h2
      · rcases List.mem_cons.mp h1 with h2 | h2
        · rcases maxBySim_eq_or_lt t b with h3 | h3
          · rw [h3, h2]
            exact le_of_lt (hhead f (by simp))
          · exfalso
            have hfb : f.similarity_score ≤ b.similarity_score := not_lt.mp h
            rw [h2] at hsim
            rw [← hsim] at h3
            exact absurd hfb (not_le.mpr h3)
        · refine ih b ?_ x (by simp [h2]) hsim
          refine List.pairwise_cons.mpr ⟨?_, (List.pairwise_cons.mp htail).2⟩
          intro y hy
          exact hhead y (by simp [hy])

/-- C7.  On every non-empty region with strictly increasing timestamps,
the Region Reducer yields a segment starting at the first frame's
timestamp, ending at the last frame's timestamp — widened to
`start + 1.0` exactly when the region has one frame — whose score is the
arithmetic mean of the region's scores, and whose representative image
belongs to a maximal-scoring frame, earliest among equally maximal
frames. -/
theorem claim_C7 (f : Frame) (rest : List Frame) (query : String)
    (hsorted : List.Pairwise
      (fun a b => a.timestamp_seconds < b.timestamp_seconds) (f :: rest)) :
    ∃ seg, createSegmentFromRegion (f :: rest) query = some seg
      ∧ seg.start_time = f.timestamp_seconds
      ∧ seg.end_time = (if rest = [] then f.timestamp_seconds + 1
          else (rest.getLastD f).timestamp_seconds)
      ∧ seg.best_score =
          ((f :: rest).map (·.similarity_score)).sum / ((f :: rest).length : ℚ)
      ∧ ∃ bf ∈ f :: rest, seg.best_image = bf.pil_image
          ∧ (∀ x ∈ f :: rest, x.similarity_score ≤ bf.similarity_score)
          ∧ ∀ x ∈ f :: rest, x.similarity_score = bf.similarity_score →
              bf.timestamp_seconds ≤ x.timestamp_seconds := by
  refine ⟨_, rfl, rfl, ?_, rfl, maxBySim f rest, maxBySim_mem rest f, rfl,
    maxBySim_le rest f, maxBySim_earliest rest f hsorted⟩
  cases rest with
  | nil => simp
  | cons g t =>
    have hmem : (g :: t).getLastD f ∈ g :: t := by
      rw [List.getLastD_cons]
      exact List.getLastD_mem_cons t g
    have hlt : f.timestamp_seconds < ((g :: t).getLastD f).timestamp_seconds :=
      (List.pairwise_cons.mp hsorted).1 _ hmem
    simp [ne_of_lt hlt]
    intro h
    exact absurd h (by simpa using ne_of_lt hlt)

/-- C7 witness: on a concrete two-frame region the reducer produces a
segment. -/
theorem claim_C7_witness :
    (createSegmentFromRegion [w7a, w7b] "cat").isSome = true := by
  obtain ⟨seg, hseg, _⟩ := claim_C7 w7a [w7b] "cat"
    (List.pairwise_cons.mpr
      ⟨fun x hx => by simp at hx; rw [hx]; decide, List.pairwise_singleton _ _⟩)
  rw [hseg]
  rfl

/-- The post-sort quality filter preserves descending-score order. -/
theorem filterQualityAux_sorted (L : List Seg)
    (h : List.Sorted scoreDescRel L) :
    List.Sorted scoreDescRel (filterQualityAux L) := by
  match L with
  | [] => exact h
  | [s] => exact h
  | best :: s2 :: rest =>
    simp only [filterQualityAux]
    by_cases hq : (best :: s2 :: rest).filter
        (fun s => decide (max (3/10 : ℚ) (best.best_score * (7/10)) ≤ s.best_score)) = []
    · simp only [hq, if_true]
      exact List.sorted_singleton best
    · simp only [hq, if_false]
      exact h.filter _

/-- Every output of the post-sort quality filter is one of its inputs. -/
theorem filterQualityAux_mem (L : List Seg) :
    ∀ s ∈ filterQualityAux L, s ∈ L := by
  match L with
  | [] => intro s hs; exact hs
  | [t] => intro s hs; exact hs
  | best :: s2 :: rest =>
    intro s hs
    simp only [filterQualityAux] at hs
    by_cases hq : (best :: s2 :: rest).filter
        (fun t => decide (max (3/10 : ℚ) (best.best_score * (7/10)) ≤ t.best_score)) = []
    · simp only [hq, if_true] at hs
      simp at hs
      simp [hs]
    · simp only [hq, if_false] at hs
      exact List.mem_of_mem_filter hs

/-- The post-sort quality filter never empties a non-empty list. -/
theorem filterQualityAux_ne_nil (L : List Seg) (h : L ≠ []) :
    filterQualityAux L ≠ [] := by
  match L with
  | [] => exact absurd rfl h
  | [s] => simp [filterQualityAux]
  | best :: s2 :: rest =>
    simp only [filterQualityAux]
    by_cases hq : (best :: s2 :: rest).filter
        (fun s => decide (max (3/10 : ℚ) (best.best_score * (7/10)) ≤ s.best_score)) = []
    · rw [if_pos hq]
      simp
    · rw [if_neg hq]
      exact hq

/-- C8.  For every non-empty segments input whose maximal score is
`b.best_score`, the Quality Filter keeps exactly (as a multiset: up to
its score-descending reordering) the segments scoring at least
`max(0.3, best * 0.7)`; if that set is empty it falls back to a single
best-scoring segment, so a non-empty input never yields an empty
output. -/
theorem claim_C8 (segments : List Seg) (b : Seg) (hb : b ∈ segments)
    (hmax : ∀ s ∈ segments, s.best_score ≤ b.best_score) :
    filterQualitySegments segments ≠ []
    ∧ (segments.filter
        (fun s => decide (max (3/10 : ℚ) (b.best_score * (7/10)) ≤ s.best_score)) ≠ [] →
        (filterQualitySegments segments).Perm
          (segments.filter
            (fun s => decide (max (3/10 : ℚ) (b.best_score * (7/10)) ≤ s.best_score))))
    ∧ (segments.filter
        (fun s => decide (max (3/10 : ℚ) (b.best_score * (7/10)) ≤ s.best_score)) = [] →
        ∃ m ∈ segments, filterQualitySegments segments = [m]
          ∧ ∀ s ∈ segments, s.best_score ≤ m.best_score) := by
  have hperm : (segments.insertionSort scoreDescRel).Perm segments :=
    List.perm_insertionSort scoreDescRel segments
  have hsorted : List.Sorted scoreDescRel (segments.insertionSort scoreDescRel) :=
    List.sorted_insertionSort scoreDescRel segments
  cases hL : segments.insertionSort scoreDescRel with
  | nil =>
    exfalso
    rw [hL] at hperm
    have hsegnil : segments = [] := hperm.symm.eq_nil
    rw [hsegnil] at hb
    exact absurd hb (List.not_mem_nil b)
  | cons best tail =>
    rw [hL] at hperm hsorted
    have hbestmem : best ∈ segments := hperm.subset (by simp)
    have htailmax : ∀ x ∈ tail, x.best_score ≤ best.best_score := by
      intro x hx
      exact (List.pairwise_cons.mp hsorted).1 x hx
    have hbestmax : ∀ s ∈ segments, s.best_score ≤ best.best_score := by
      intro s hs
      rcases List.mem_cons.mp (hperm.symm.subset hs) with h1 | h1
      · rw [h1]
      · exact htailmax s h1
    have hbb : best.best_score = b.best_score :=
      le_antisymm (hmax best hbestmem) (hbestmax b hb)
    have hout : filterQualitySegments segments = filterQualityAux (best :: tail) := by
      rw [filterQualitySegments, hL]
    cases tail with
    | nil =>
      have hseg : segments = [best] := List.perm_singleton.mp hperm.symm
      refine ⟨?_, ?_, ?_⟩
      · rw [hout]
        simp [filterQualityAux]
      · intro hne
        rw [hseg] at hne
        have hpb : decide (max (3/10 : ℚ) (b.best_score * (7/10)) ≤ best.best_score)
            = true := by
          by_cases hp : max (3/10 : ℚ) (b.best_score * (7/10)) ≤ best.best_score
          · simpa using hp
          · exfalso
            apply hne
            rw [List.filter_cons]
            simp [hp]
        have hfil : [best].filter
            (fun s => decide (max (3/10 : ℚ) (b.best_score * (7/10)) ≤ s.best_score))
              = [best] := by
          rw [List.filter_cons, hpb]
          simp
        rw [hout, hseg, hfil]
        exact List.Perm.refl [best]
      · intro _
        refine ⟨best, hbestmem, ?_, hbestmax⟩
        rw [hout]
        rfl
    | cons s2 t2 =>
      have hfeq : (best :: s2 :: t2).filter
          (fun s => decide (max (3/10 : ℚ) (best.best_score * (7/10)) ≤ s.best_score)) =
            (best :: s2 :: t2).filter
              (fun s => decide (max (3/10 : ℚ) (b.best_score * (7/10)) ≤ s.best_score)) := by
        simp only [hbb]
      have hfilperm : ((best :: s2 :: t2).filter
          (fun s => decide (max (3/10 : ℚ) (b.best_score * (7/10)) ≤ s.best_score))).Perm
            (segments.filter
              (fun s => decide (max (3/10 : ℚ) (b.best_score * (7/10)) ≤ s.best_score))) :=
        List.Perm.filter _ hperm
      rw [hout]
      simp only [filterQualityAux]
      rw [hfeq]
      by_cases hq : (best :: s2 :: t2).filter
          (fun s => decide (max (3/10 : ℚ) (b.best_score * (7/10)) ≤ s.best_score)) = []
      · rw [if_pos hq]
        refine ⟨List.cons_ne_nil best [], ?_, ?_⟩
        · intro hne
          exfalso
          rw [hq] at hfilperm
          exact hne (hfilperm.symm.eq_nil)
        · intro _
          exact ⟨best, hbestmem, rfl, hbestmax⟩
      · rw [if_neg hq]
        refine ⟨hq, ?_, ?_⟩
        · intro _
          exact hfilperm
        · intro hnil
          exfalso
          rw [hnil] at hfilperm
          exact hq hfilperm.eq_nil

/-- C8 witness: the claim's worked example — segments scoring
`[0.9, 0.5, 0.2]` give threshold `max(0.3, 0.63) = 0.63`, so only the
`0.9` segment survives. -/
theorem claim_C8_witness :
    filterQualitySegments [w8a, w8b, w8c] = [w8a] := by
  obtain ⟨-, h2, -⟩ := claim_C8 [w8a, w8b, w8c] w8a (by decide) (by decide)
  have hfil : [w8a, w8b, w8c].filter
      (fun s => decide (max (3/10 : ℚ) (w8a.best_score * (7/10)) ≤ s.best_score)) =
        [w8a] := by decide
  have hp := h2 (by rw [hfil]; exact List.cons_ne_nil _ _)
  rw [hfil] at hp
  exact List.perm_singleton.mp hp

/-- C10.  With at least two input segments, the Quality Filter returns
its survivors sorted by score descending, and the top-level search's
final step likewise sorts (and truncates) its results by score
descending: the engine's output ordering is by confidence, not time. -/
theorem claim_C10 :
    (∀ segments : List Seg, 2 ≤ segments.length →
      List.Sorted scoreDescRel (filterQualitySegments segments))
    ∧ ∀ (results : List SearchResult) (top_k : ℕ),
      List.Sorted resScoreDescRel (sortAndLimitResults results top_k) := by
  constructor
  · intro segments _
    exact filterQualityAux_sorted _ (List.sorted_insertionSort scoreDescRel segments)
  · intro results top_k
    exact (List.sorted_insertionSort resScoreDescRel results).take

/-- C10 witness: two concrete segments come back sorted by score
descending. -/
theorem claim_C10_witness :
    List.Sorted scoreDescRel (filterQualitySegments [wX, wY]) :=
  claim_C10.1 [wX, wY] (by decide)

/-- Splitting a list by a predicate preserves total length. -/
theorem length_filter_split {α : Type} (p : α → Bool) :
    ∀ l : List α, (l.filter p).length + (l.filter (fun a => !p a)).length = l.length := by
  intro l
  induction l with
  | nil => rfl
  | cons x t ih =>
    rw [List.filter_cons, List.filter_cons]
    cases hx : p x <;> simp [hx, ← ih] <;> omega

/-- The greedy diverse pass only appends to the selection it is given. -/
theorem diversePassAux_extend (k : ℕ) :
    ∀ (items sel : List SimItem) (ts : List ℚ),
      ∃ ext, diversePassAux k items sel ts = sel ++ ext := by
  intro items
  induction items with
  | nil => intro sel ts; exact ⟨[], by simp [diversePassAux]⟩
  | cons item rest ih =>
    intro sel ts
    rw [diversePassAux]
    by_cases hd : isDiverseFrom item.timestamp ts
    · rw [if_pos hd]
      by_cases hk : k ≤ (sel ++ [item]).length
      · rw [if_pos hk]; exact ⟨[item], rfl⟩
      · rw [if_neg hk]
        obtain ⟨ext, hext⟩ := ih (sel ++ [item]) (ts ++ [item.timestamp])
        exact ⟨[item] ++ ext, by rw [hext, List.append_assoc]⟩
    · rw [if_neg hd]; exact ih sel ts

/-- The greedy diverse pass never selects more than `top_k` items when
started below the bound. -/
theorem diversePassAux_length_le (k : ℕ) :
    ∀ (items sel : List SimItem) (ts : List ℚ), sel.length < k →
      (diversePassAux k items sel ts).length ≤ k := by
  intro items
  induction items with
  | nil => intro sel ts h; rw [diversePassAux]; exact le_of_lt h
  | cons item rest ih =>
    intro sel ts h
    rw [diversePassAux]
    by_cases hd : isDiverseFrom item.timestamp ts
    · rw [if_pos hd]
      by_cases hk : k ≤ (sel ++ [item]).length
      · rw [if_pos hk]
        simp at hk ⊢
        omega
      · rw [if_neg hk]
        exact ih (sel ++ [item]) (ts ++ [item.timestamp]) (not_le.mp hk)
    · rw [if_neg hd]; exact ih sel ts h

/-- Every two items accepted by the greedy diverse pass are at least
half a second apart. -/
theorem diversePassAux_pairwise (k : ℕ) :
    ∀ (items sel : List SimItem) (ts : List ℚ),
      ts = sel.map (fun i => i.timestamp) →
      List.Pairwise (fun a b => 1/2 ≤ |a.timestamp - b.timestamp|) sel →
      List.Pairwise (fun a b => 1/2 ≤ |a.timestamp - b.timestamp|)
        (diversePassAux k items sel ts) := by
  intro items
  induction items with
  | nil => intro sel ts _ hp; rw [diversePassAux]; exact hp
  | cons item rest ih =>
    intro sel ts hts hp
    rw [diversePassAux]
    by_cases hd : isDiverseFrom item.timestamp ts
    · have hsel : ∀ a ∈ sel, 1/2 ≤ |a.timestamp - item.timestamp| := by
        intro a ha
        have := List.all_eq_true.mp hd (a.timestamp) (by rw [hts]; exact List.mem_map_of_mem _ ha)
        rw [abs_sub_comm]
        simpa using this
      have hp2 : List.Pairwise (fun a b => 1/2 ≤ |a.timestamp - b.timestamp|)
          (sel ++ [item]) := by
        rw [List.pairwise_append]
        refine ⟨hp, List.pairwise_singleton _ _, ?_⟩
        intro a ha b hb
        simp at hb
        rw [hb]
        exact hsel a ha
      rw [if_pos hd]
      by_cases hk : k ≤ (sel ++ [item]).length
      · rw [if_pos hk]; exact hp2
      · rw [if_neg hk]
        exact ih (sel ++ [item]) (ts ++ [item.timestamp]) (by rw [hts]; simp) hp2
    · rw [if_neg hd]; exact ih sel ts hts hp

/-- On duplicate-free candidates the top-up pass reaches exactly
`top_k` selected items whenever enough unselected candidates remain. -/
theorem fillPassAux_length (k : ℕ) :
    ∀ (items sel : List SimItem), items.Nodup → sel.length < k →
      k ≤ sel.length + (items.filter (fun i => decide (i ∉ sel))).length →
      (fillPassAux k items sel).length = k := by
  intro items
  induction items with
  | nil =>
    intro sel _ hlt hcount
    simp at hcount
    omega
  | cons i rest ih =>
    intro sel hnod hlt hcount
    obtain ⟨hihd, hitl⟩ := List.nodup_cons.mp hnod
    rw [fillPassAux]
    by_cases hmem : i ∈ sel
    · rw [if_neg (by simpa using hmem)]
      refine ih sel hitl hlt ?_
      rw [List.filter_cons] at hcount
      simpa [hmem] using hcount
    · rw [if_pos (by simpa using hmem)]
      by_cases hk : k ≤ (sel ++ [i]).length
      · rw [if_pos hk]
        simp at hk ⊢
        omega
      · rw [if_neg hk]
        refine ih (sel ++ [i]) hitl (not_le.mp hk) ?_
        have hfeq : rest.filter (fun x => decide (x ∉ sel ++ [i])) =
            rest.filter (fun x => decide (x ∉ sel)) := by
          refine List.filter_congr ?_
          intro x hx
          have hxi : x ≠ i := fun hcon => hihd (hcon ▸ hx)
          simp [hxi]
        rw [hfeq]
        rw [List.filter_cons] at hcount
        simp [hmem] at hcount
        simp
        omega
    
/-- C4 (amended).  The Temporal Diverse Selector returns exactly
`min(k, len(candidates))` items for every positive `k` and
duplicate-free candidates; the empty input yields an empty selection,
but `k = 0` on a non-empty input returns one item (the loop breaks only
after its first append), and duplicate candidate entries can make the
result fall short of `min(k, len)`.  Items accepted by the greedy pass
are pairwise at least 0.5 s apart, and when that pass alone fills the
quota the selector returns exactly its accepted items. -/
theorem claim_C4 :
    (∀ k, selectTemporallyDiverseFrames [] k = [])
    ∧ (∀ (item : SimItem) (rest : List SimItem),
        selectTemporallyDiverseFrames (item :: rest) 0 = [item])
    ∧ (∀ (sims : List SimItem) (k : ℕ), 1 ≤ k → sims.Nodup →
        (selectTemporallyDiverseFrames sims k).length = min k sims.length)
    ∧ (∀ (sims : List SimItem) (k : ℕ),
        List.Pairwise (fun a b => 1/2 ≤ |a.timestamp - b.timestamp|)
          (diversePassAux k sims [] []))
    ∧ (∀ (sims : List SimItem) (k : ℕ), k < sims.length →
        ¬ (diversePassAux k sims [] []).length < k →
        selectTemporallyDiverseFrames sims k = diversePassAux k sims [] []) := by
  refine ⟨?_, ?_, ?_, ?_, ?_⟩
  · intro k; simp [selectTemporallyDiverseFrames]
  · intro item rest
    rfl
  · intro sims k hk hnod
    rw [selectTemporallyDiverseFrames]
    by_cases hle : sims.length ≤ k
    · rw [if_pos hle]
      simp [List.length_take]
    · rw [if_neg hle]
      have hkl : k < sims.length := not_le.mp hle
      have hbound : (diversePassAux k sims [] []).length ≤ k :=
        diversePassAux_length_le k sims [] [] (by simp only [List.length_nil]; omega)
      by_cases hfill : (diversePassAux k sims [] []).length < k
      · rw [if_pos hfill]
        rw [min_eq_left (le_of_lt hkl)]
        refine fillPassAux_length k sims (diversePassAux k sims [] []) hnod hfill ?_
        have hsub : (sims.filter
            (fun i => decide (i ∈ diversePassAux k sims [] []))).length ≤
              (diversePassAux k sims [] []).length := by
          refine List.Subperm.length_le ?_
          refine List.subperm_of_subset (hnod.filter _) ?_
          intro x hx
          exact of_decide_eq_true (List.mem_filter.mp hx).2
        have hsplit := length_filter_split
          (fun i => decide (i ∈ diversePassAux k sims [] [])) sims
        have hnoteq : (sims.filter
            (fun i => decide (i ∉ diversePassAux k sims [] []))).length =
              (sims.filter (fun i =>
                !decide (i ∈ diversePassAux k sims [] []))).length := by
          congr 1
          exact List.filter_congr (fun x _ => by simp)
        rw [hnoteq]
        omega
      · rw [if_neg hfill]
        rw [le_antisymm hbound (not_lt.mp hfill), min_eq_left (le_of_lt hkl)]
  · intro sims k
    exact diversePassAux_pairwise k sims [] [] rfl List.Pairwise.nil
  · intro sims k hkl hnl
    rw [selectTemporallyDiverseFrames, if_neg (not_le.mpr hkl), if_neg hnl]

/-- C4 witness: two distinct candidates and `k = 1` yield exactly
`min(1, 2) = 1` item. -/
theorem claim_C4_witness :
    (selectTemporallyDiverseFrames [w4i, w4j] 1).length = min 1 [w4i, w4j].length :=
  claim_C4.2.2.1 [w4i, w4j] 1 (by decide) (by decide)

/-- C4 counterexample: `k = 0` on one candidate returns one item, not
`min(0, 1) = 0`; and three duplicate entries with `k = 2` return a
single item, not `min(2, 3) = 2`. -/
theorem claim_C4_counterexample :
    (selectTemporallyDiverseFrames [w4i] 0).length ≠ min 0 [w4i].length
    ∧ (selectTemporallyDiverseFrames [w4i, w4i, w4i] 2).length ≠
        min 2 [w4i, w4i, w4i].length :=
  ⟨by decide, by decide⟩

/-- The boundary detector is the composition of the relevance filter,
region finding, per-region reduction, merging, and quality filtering. -/
theorem detect_eq_stages (sorted_frames : List Frame) (query : String) :
    detectContentBoundaries sorted_frames query =
      filterQualitySegments
        (mergeCloseSegments
          ((findContinuousRegions (relevantFrames sorted_frames)).filterMap
            (fun r => createSegmentFromRegion r query)) query) := by
  cases sorted_frames with
  | nil => rfl
  | cons f rest =>
    simp only [detectContentBoundaries]
    by_cases h : relevantFrames (f :: rest) = []
    · rw [if_pos h, h]
      rfl
    · rw [if_neg h]

/-- The regions of any frames list concatenate back to that list. -/
theorem findContinuousRegions_flatten (l : List Frame) :
    (findContinuousRegions l).flatten = l := by
  cases l with
  | nil => rfl
  | cons f rest => exact findRegionsAux_join rest f []

/-- Field characterization of a reduced segment. -/
theorem createSegment_fields (f : Frame) (rest : List Frame) (q : String) (s : Seg)
    (h : createSegmentFromRegion (f :: rest) q = some s) :
    s.start_time = f.timestamp_seconds
    ∧ s.end_time = (if f.timestamp_seconds = (rest.getLastD f).timestamp_seconds
        then f.timestamp_seconds + 1 else (rest.getLastD f).timestamp_seconds)
    ∧ s.best_score =
        ((f :: rest).map (·.similarity_score)).sum / ((f :: rest).length : ℚ) := by
  rw [createSegmentFromRegion] at h
  simp only [Option.some.injEq] at h
  rw [← h]
  exact ⟨rfl, rfl, rfl⟩

/-- A reduced segment comes from a non-empty region and starts at its
first frame's timestamp. -/
theorem createSegment_shape (r : List Frame) (q : String) (s : Seg)
    (h : createSegmentFromRegion r q = some s) :
    ∃ f rest, r = f :: rest ∧ s.start_time = f.timestamp_seconds := by
  match r with
  | [] => exact absurd h (by simp [createSegmentFromRegion])
  | f :: rest => exact ⟨f, rest, rfl, (createSegment_fields f rest q s h).1⟩

/-- On a chronologically ordered region, the reduced segment's time
range is non-degenerate. -/
theorem createSegment_start_le_end (f : Frame) (rest : List Frame) (q : String)
    (s : Seg) (h : createSegmentFromRegion (f :: rest) q = some s)
    (hts : List.Pairwise tsRel (f :: rest)) :
    s.start_time ≤ s.end_time := by
  obtain ⟨hst, hen, -⟩ := createSegment_fields f rest q s h
  rw [hst, hen]
  by_cases heq : f.timestamp_seconds = (rest.getLastD f).timestamp_seconds
  · rw [if_pos heq]
    linarith
  · rw [if_neg heq]
    have hmem : rest.getLastD f ∈ f :: rest := List.getLastD_mem_cons rest f
    rcases List.mem_cons.mp hmem with h1 | h1
    · rw [h1]
    · exact (List.pairwise_cons.mp hts).1 _ h1

/-- The mean of non-negative scores is non-negative. -/
theorem mean_score_nonneg (f : Frame) (rest : List Frame)
    (h : ∀ x ∈ f :: rest, (0:ℚ) ≤ x.similarity_score) :
    0 ≤ ((f :: rest).map (·.similarity_score)).sum / ((f :: rest).length : ℚ) := by
  apply div_nonneg
  · apply List.sum_nonneg
    intro x hx
    obtain ⟨y, hy, rfl⟩ := List.mem_map.mp hx
    exact h y hy
  · exact_mod_cast Nat.zero_le _

/-- C2 (amended).  Every segment the end-to-end segmentation returns has
`start_time <= end_time`; the merge stage's output covers pairwise
disjoint (or touching) time ranges in chronological order; but the
final, externally returned list is sorted by score descending (the
quality filter reorders it), not by start time. -/
theorem claim_C2 (frames : List Frame) (query : String) :
    (∀ s ∈ groupFramesIntoSegments frames query, s.start_time ≤ s.end_time)
    ∧ List.Chain' (fun a b => a.end_time ≤ b.start_time)
        (mergeCloseSegments
          ((findContinuousRegions
            (relevantFrames (frames.insertionSort tsRel))).filterMap
              (fun r => createSegmentFromRegion r query)) query)
    ∧ List.Sorted scoreDescRel (groupFramesIntoSegments frames query) := by
  have hsorted : List.Sorted tsRel (frames.insertionSort tsRel) :=
    List.sorted_insertionSort tsRel frames
  have hrelsorted : List.Pairwise tsRel
      (relevantFrames (frames.insertionSort tsRel)) := hsorted.filter _
  have hrelscore : ∀ f ∈ relevantFrames (frames.insertionSort tsRel),
      (0:ℚ) ≤ f.similarity_score := by
    intro f hf
    have := (List.mem_filter.mp hf).2
    have h14 : similarityThreshold < f.similarity_score := of_decide_eq_true this
    have : (0:ℚ) ≤ similarityThreshold := by rw [similarityThreshold]; norm_num
    linarith
  have hflat : (findContinuousRegions
      (relevantFrames (frames.insertionSort tsRel))).flatten =
        relevantFrames (frames.insertionSort tsRel) :=
    findContinuousRegions_flatten _
  have hpairflat : List.Pairwise tsRel
      (findContinuousRegions
        (relevantFrames (frames.insertionSort tsRel))).flatten := by
    rw [hflat]; exact hrelsorted
  obtain ⟨hwithin, hacross⟩ := List.pairwise_flatten.mp hpairflat
  have hmemflat : ∀ r ∈ findContinuousRegions
      (relevantFrames (frames.insertionSort tsRel)), ∀ x ∈ r,
        (0:ℚ) ≤ x.similarity_score := by
    intro r hr x hx
    apply hrelscore
    rw [← hflat]
    exact List.mem_flatten.mpr ⟨r, hr, hx⟩
  have hsegs_pair : List.Pairwise (fun a b : Seg => a.start_time ≤ b.start_time)
      ((findContinuousRegions
        (relevantFrames (frames.insertionSort tsRel))).filterMap
          (fun r => createSegmentFromRegion r query)) := by
    rw [List.pairwise_filterMap]
    refine hacross.imp ?_
    intro r1 r2 hcross b hb b' hb'
    obtain ⟨f1, t1, hr1, hs1⟩ := createSegment_shape r1 query b (Option.mem_def.mp hb)
    obtain ⟨f2, t2, hr2, hs2⟩ := createSegment_shape r2 query b' (Option.mem_def.mp hb')
    rw [hs1, hs2]
    exact hcross f1 (by rw [hr1]; simp) f2 (by rw [hr2]; simp)
  have hsegs_se : ∀ s ∈ (findContinuousRegions
      (relevantFrames (frames.insertionSort tsRel))).filterMap
        (fun r => createSegmentFromRegion r query),
          s.start_time ≤ s.end_time := by
    intro s hs
    obtain ⟨r, hrmem, hcreate⟩ := List.mem_filterMap.mp hs
    obtain ⟨f, rest, hr, -⟩ := createSegment_shape r query s hcreate
    rw [hr] at hcreate
    refine createSegment_start_le_end f rest query s hcreate ?_
    rw [← hr]
    exact hwithin r hrmem
  have hsegs_score : ∀ s ∈ (findContinuousRegions
      (relevantFrames (frames.insertionSort tsRel))).filterMap
        (fun r => createSegmentFromRegion r query),
          (0:ℚ) ≤ s.best_score := by
    intro s hs
    obtain ⟨r, hrmem, hcreate⟩ := List.mem_filterMap.mp hs
    obtain ⟨f, rest, hr, -⟩ := createSegment_shape r query s hcreate
    rw [hr] at hcreate
    rw [(createSegment_fields f rest query s hcreate).2.2]
    refine mean_score_nonneg f rest ?_
    intro x hx
    refine hmemflat r hrmem x ?_
    rw [hr]
    exact hx
  have hmerge_se : ∀ s ∈ mergeCloseSegments
      ((findContinuousRegions
        (relevantFrames (frames.insertionSort tsRel))).filterMap
          (fun r => createSegmentFromRegion r query)) query,
        s.start_time ≤ s.end_time := by
    cases hsegs : (findContinuousRegions
        (relevantFrames (frames.insertionSort tsRel))).filterMap
          (fun r => createSegmentFromRegion r query) with
    | nil => intro s hs; exact absurd hs (by simp [mergeCloseSegments])
    | cons s1 rest2 =>
      cases rest2 with
      | nil =>
        intro s hs
        simp [mergeCloseSegments] at hs
        rw [hs]
        exact hsegs_se s1 (by rw [hsegs]; simp)
      | cons n r2 =>
        intro s hs
        refine mergeAux_start_le_end query (n :: r2) s1 ?_ ?_ ?_ s hs
        · exact hsegs_se s1 (by rw [hsegs]; simp)
        · intro x hx
          exact hsegs_se x (by rw [hsegs]; simp [hx])
        · have := hsegs_pair.chain'
          rw [hsegs] at this
          exact this
  refine ⟨?_, ?_, ?_⟩
  · intro s hs
    cases frames with
    | nil => exact absurd hs (by simp [groupFramesIntoSegments])
    | cons f rest =>
      rw [groupFrames_cons, detect_eq_stages] at hs
      have hs2 := filterQualityAux_mem _ s hs
      have hs3 := (List.perm_insertionSort scoreDescRel _).subset hs2
      exact hmerge_se s hs3
  · cases hsegs : (findContinuousRegions
        (relevantFrames (frames.insertionSort tsRel))).filterMap
          (fun r => createSegmentFromRegion r query) with
    | nil => simp [mergeCloseSegments]
    | cons s1 rest2 =>
      cases rest2 with
      | nil => simp [mergeCloseSegments]
      | cons n r2 =>
        have hdisj := mergeAux_disjoint query (n :: r2) s1
          (hsegs_score s1 (by rw [hsegs]; simp))
          (fun t ht => hsegs_score t (by rw [hsegs]; simp [ht]))
        refine List.Chain'.imp ?_ hdisj
        intro a b hab
        exact hab
  · cases frames with
    | nil => simp [groupFramesIntoSegments]
    | cons f rest =>
      rw [groupFrames_cons, detect_eq_stages]
      exact filterQualityAux_sorted _ (List.sorted_insertionSort scoreDescRel _)

/-- C2 witness: a concrete returned segment has a non-degenerate time
range. -/
theorem claim_C2_witness :
    w2seg.start_time ≤ w2seg.end_time :=
  (claim_C2 [wF1, wF2] "cat").1 w2seg (by decide)

/-- C2 counterexample: two far-apart frames where the later scores
higher.  The pipeline returns the later segment first (score order), so
the returned list is not in non-decreasing `start_time` order. -/
theorem claim_C2_counterexample :
    (groupFramesIntoSegments [wF1, wF2] "cat").map (fun s => s.start_time) = [10, 0]
    ∧ ¬ List.Chain' (fun a b => a.start_time ≤ b.start_time)
        (groupFramesIntoSegments [wF1, wF2] "cat") := by
  have h1 : (groupFramesIntoSegments [wF1, wF2] "cat").map (fun s => s.start_time)
      = [10, 0] := by decide
  refine ⟨h1, ?_⟩
  intro hch
  have hch2 : List.Chain' (fun a b : ℚ => a ≤ b)
      ((groupFramesIntoSegments [wF1, wF2] "cat").map (fun s => s.start_time)) :=
    (List.chain'_map _).mpr hch
  rw [h1] at hch2
  exact absurd (List.chain'_pair.mp hch2) (by norm_num)

/-- A reduced segment's caption is generated from its own start and end
times, the query, and its representative frame's source caption. -/
theorem createSegment_caption (f : Frame) (rest : List Frame) (q : String) (s : Seg)
    (h : createSegmentFromRegion (f :: rest) q = some s) :
    s.caption =
      generateSegmentCaption s.start_time s.end_time q (maxBySim f rest).caption := by
  rw [createSegmentFromRegion] at h
  simp only [Option.some.injEq] at h
  rw [← h]

/-- A merged segment's caption is regenerated from its own start and end
times with no source caption, regardless of the score comparison. -/
theorem mergeStep_caption (c n : Seg) (q : String) :
    (mergeStep c n q).caption =
      generateSegmentCaption (mergeStep c n q).start_time
        (mergeStep c n q).end_time q none := by
  rw [mergeStep]

/-- Every segment the merge loop outputs is either one of its input
segments or carries a caption regenerated, with no source caption, from
its own final time span. -/
theorem mergeAux_caption (q : String) :
    ∀ (rest : List Seg) (c : Seg), ∀ s ∈ mergeAux q c rest,
      s ∈ c :: rest
      ∨ s.caption = generateSegmentCaption s.start_time s.end_time q none := by
  intro rest
  induction rest with
  | nil =>
    intro c s hs
    simp [mergeAux] at hs
    exact Or.inl (by simp [hs])
  | cons n rest ih =>
    intro c s hs
    rw [mergeAux] at hs
    by_cases h : n.start_time - c.end_time ≤ mergeThreshold c n
    · rw [if_pos h] at hs
      rcases ih (mergeStep c n q) s hs with hmem | hcap
      · rcases List.mem_cons.mp hmem with h1 | h1
        · right
          rw [h1]
          exact mergeStep_caption c n q
        · exact Or.inl (by simp [h1])
      · exact Or.inr hcap
    · rw [if_neg h] at hs
      rcases List.mem_cons.mp hs with h1 | h1
      · exact Or.inl (by simp [h1])
      · rcases ih n s h1 with hmem | hcap
        · rcases List.mem_cons.mp hmem with h2 | h2
          · exact Or.inl (by simp [h2])
          · exact Or.inl (by simp [h2])
        · exact Or.inr hcap

/-- C3 (amended).  Every caption attached to a returned segment is
produced by the caption formatter from the segment's own final time
range, the query, and a source caption that is either the caption of one
of the input frames (the originating region's representative, when the
segment was never merged) or absent — the merger regenerates every
merged segment's caption with no source caption.  The formatter yields
`"{description} ({start:.1f}s-{end:.1f}s, {duration:.1f}s duration)"`
exactly when given a non-empty source caption not containing
`"Content at"`, and the generic
`"Content from {start:.1f}s to {end:.1f}s ({duration:.1f}s duration)"`
when given no (or an empty) source caption and a query containing none
of the keywords blue, circle, red, strip; keyword queries get a
keyword-specific caption instead.  In particular a returned merged
segment whose representative frame carries a non-empty caption still
receives the span-only generic caption. -/
theorem claim_C3 :
    (∀ (frames : List Frame) (query : String),
      ∀ s ∈ groupFramesIntoSegments frames query,
        s.caption = generateSegmentCaption s.start_time s.end_time query none
        ∨ ∃ f ∈ frames,
            s.caption = generateSegmentCaption s.start_time s.end_time query f.caption)
    ∧ (∀ (st en : ℚ) (q c : String), c ≠ "" → strContains c "Content at" = false →
        generateSegmentCaption st en q (some c) =
          c ++ " (" ++ fmt1 st ++ "s-" ++ fmt1 en ++ "s, " ++ fmt1 (en - st) ++
            "s duration)")
    ∧ (∀ (st en : ℚ) (q : String) (oc : Option String),
        (oc = none ∨ oc = some "") → queryHasKeyword q = false →
        generateSegmentCaption st en q oc =
          "Content from " ++ fmt1 st ++ "s to " ++ fmt1 en ++ "s (" ++
            fmt1 (en - st) ++ "s duration)") := by
  refine ⟨?_, ?_, ?_⟩
  · intro frames query s hs
    cases frames with
    | nil => exact absurd hs (by simp [groupFramesIntoSegments])
    | cons f0 rest0 =>
      rw [groupFrames_cons, detect_eq_stages] at hs
      have hs2 := filterQualityAux_mem _ s hs
      have hs3 := (List.perm_insertionSort scoreDescRel _).subset hs2
      cases hsegs : (findContinuousRegions
          (relevantFrames ((f0 :: rest0).insertionSort tsRel))).filterMap
            (fun r => createSegmentFromRegion r query) with
      | nil =>
        rw [hsegs] at hs3
        exact absurd hs3 (by simp [mergeCloseSegments])
      | cons s1 rest2 =>
        rw [hsegs] at hs3
        have hmem_or : s ∈ s1 :: rest2
            ∨ s.caption = generateSegmentCaption s.start_time s.end_time query none := by
          cases rest2 with
          | nil =>
            simp [mergeCloseSegments] at hs3
            exact Or.inl (by simp [hs3])
          | cons n r2 => exact mergeAux_caption query (n :: r2) s1 s hs3
        rcases hmem_or with hmem | hcap
        · rw [← hsegs] at hmem
          obtain ⟨r, hrmem, hcreate⟩ := List.mem_filterMap.mp hmem
          obtain ⟨f, rrest, hr, -⟩ := createSegment_shape r query s hcreate
          rw [hr] at hcreate
          right
          refine ⟨maxBySim f rrest, ?_, createSegment_caption f rrest query s hcreate⟩
          have h1 : maxBySim f rrest ∈ r := by
            rw [hr]
            exact maxBySim_mem rrest f
          have h2 : maxBySim f rrest ∈ (findContinuousRegions
              (relevantFrames ((f0 :: rest0).insertionSort tsRel))).flatten :=
            List.mem_flatten.mpr ⟨r, hrmem, h1⟩
          rw [findContinuousRegions_flatten] at h2
          have h3 : maxBySim f rrest ∈ (f0 :: rest0).insertionSort tsRel :=
            List.mem_of_mem_filter h2
          exact (List.perm_insertionSort tsRel _).subset h3
        · exact Or.inl hcap
  · intro st en q c hc hcont
    rw [generateSegmentCaption]
    simp [hc, hcont]
  · intro st en q oc hoc hkw
    rcases hoc with h | h <;>
      · rw [h, generateSegmentCaption]
        simp [hkw]

/-- C3 witness: a concrete returned segment's caption is traced to its
representative frame's source caption, and both formatter branches are
exercised at concrete arguments. -/
theorem claim_C3_witness :
    (w3seg.caption = generateSegmentCaption w3seg.start_time w3seg.end_time "cat" none
      ∨ ∃ f ∈ [w3f],
          w3seg.caption =
            generateSegmentCaption w3seg.start_time w3seg.end_time "cat" f.caption)
    ∧ generateSegmentCaption 0 1 "cat" (some "A video frame") =
        "A video frame" ++ " (" ++ fmt1 0 ++ "s-" ++ fmt1 1 ++ "s, " ++
          fmt1 (1 - 0) ++ "s duration)"
    ∧ generateSegmentCaption 0 1 "cat" none =
        "Content from " ++ fmt1 0 ++ "s to " ++ fmt1 1 ++ "s (" ++
          fmt1 (1 - 0) ++ "s duration)" :=
  ⟨claim_C3.1 [w3f] "cat" w3seg (by decide),
    claim_C3.2.1 0 1 "cat" "A video frame" (by decide) (by decide),
    claim_C3.2.2 0 1 "cat" none (Or.inl rfl) (by decide)⟩

/-- C3 counterexample: the original contract fails twice.  With no
source caption and the query `"blue"`, the returned caption is the
keyword-specific one, not the generic fallback.  And two frames both
carrying the non-empty caption `"A video frame"` merge into one returned
segment whose representative image is the captioned frame's, yet whose
caption is the generic span caption — the merger regenerates captions
with no source. -/
theorem claim_C3_counterexample :
    ((groupFramesIntoSegments [w3g] "blue").map (fun s => s.caption) =
        ["Blue Circle Content from 1.0s to 2.0s (1.0s duration)"]
      ∧ ["Blue Circle Content from 1.0s to 2.0s (1.0s duration)"] ≠
          ["Content from 1.0s to 2.0s (1.0s duration)"])
    ∧ ((groupFramesIntoSegments [w3m1, w3m2] "cat").map (fun s => s.caption) =
        ["Content from 0.0s to 3.5s (3.5s duration)"]
      ∧ (groupFramesIntoSegments [w3m1, w3m2] "cat").map (fun s => s.best_image) =
          [w3m1.pil_image]
      ∧ w3m1.caption = some "A video frame"
      ∧ "A video frame" ≠ "") :=
  ⟨⟨by decide, by decide⟩, by decide, by decide, by decide, by decide⟩

end RatReduction

end SceneLens
